import Mathlib

/-!
Verification of the Apollo AI backend services against their
natural-language specification.

Shallow embedding of the relevant Python modules:
- `app/services/intelligent_delay.py`  (delay planner)
- `app/services/message_buffer.py`     (anti-picote buffer, drain lock)
- `app/schemas/whatsapp.py`            (StandardMessage, BufferedMessagePacket)
- `app/workers/campaign_dispatcher.py` (daily cap, batch processing)
- `app/services/reengagement.py`       (watchdog selection, event emission)

Python floats are modelled as rationals; `random.uniform(a, b)` is modelled
as `a + (b - a) * t` for an oracle parameter `t ∈ [0, 1]`, which is exactly
how CPython computes it.  Redis keys are modelled as explicit state records;
each awaited Redis command is one atomic operation.
-/

namespace Apollo

/-! ### intelligent_delay.py -/

/-- The four delay strategies of `DelayStrategy` (fixed / random / progressive
/ adaptive). -/
inductive DelayStrategy
  | fixed
  | randomRange
  | progressive
  | adaptive
deriving DecidableEq

/-- `DelayConfig`: min/max seconds, strategy, jitter percent. -/
structure DelayConfig where
  minSeconds : ℚ
  maxSeconds : ℚ
  strategy : DelayStrategy
  jitterPercent : ℚ
deriving DecidableEq

/-- The dataclass defaults: `min_seconds=5.0, max_seconds=50.0,
strategy=RANDOM_RANGE, jitter_percent=10.0`. -/
def defaultConfig : DelayConfig :=
  { minSeconds := 5, maxSeconds := 50, strategy := .randomRange, jitterPercent := 10 }

/-- `IntelligentDelayService.MAX_DELAY_SECONDS = 50.0`. -/
def MAX_DELAY_SECONDS : ℚ := 50

/-- Model of `random.uniform(a, b)`: `a + (b - a) * t` with the random
draw `t ∈ [0, 1]` supplied as an oracle parameter. -/
def uniform (a b t : ℚ) : ℚ := a + (b - a) * t

/-- `delay_id.rsplit("_", 1)[0] if "_" in delay_id else delay_id`:
the part of the id before its last underscore (the whole id when it has
no underscore). -/
def progressiveKey (s : String) : String :=
  if '_' ∈ s.data then
    String.mk ((((s.data.reverse).dropWhile (fun c => c ≠ '_')).drop 1).reverse)
  else s

/-- Mutable service state: `_progressive_counter` (missing key reads 0,
as `dict.get(prefix, 0)`) and `_rate_limit_signals` (missing key reads 1.0,
as `dict.get(delay_id, 1.0)`). -/
structure ServiceState where
  progressiveCounter : String → ℕ
  rateLimitSignals : String → ℚ

/-- Freshly constructed service: both dicts empty. -/
def initialState : ServiceState :=
  { progressiveCounter := fun _ => 0, rateLimitSignals := fun _ => 1 }

/-- `set_rate_limit_signal`: stores `max(0.5, min(multiplier, 5.0))`. -/
def setRateLimitSignal (st : ServiceState) (key : String) (m : ℚ) : ServiceState :=
  { st with rateLimitSignals := fun k =>
      if k = key then max (1/2) (min m 5) else st.rateLimitSignals k }

/-- `IntelligentDelayService._calculate_delay`, with the uniform draw `t`
as an oracle.  The FIXED branch uses the service-level
`default_config.jitter_percent`; PROGRESSIVE reads and bumps the counter
keyed by the id's last-underscore prefix; ADAPTIVE multiplies by the
rate-limit signal and clamps at `max_s`. -/
def calculateDelay (jitterPercent : ℚ) (st : ServiceState)
    (minS maxS : ℚ) (strategy : DelayStrategy) (delayId : String) (t : ℚ) :
    ℚ × ServiceState :=
  match strategy with
  | .fixed =>
      let base := minS
      let jitter := base * (jitterPercent / 100)
      (max 0 (base + uniform (-jitter) jitter t), st)
  | .randomRange =>
      (uniform minS maxS t, st)
  | .progressive =>
      let key := progressiveKey delayId
      let count := st.progressiveCounter key
      let st' := { st with progressiveCounter := fun k =>
        if k = key then count + 1 else st.progressiveCounter k }
      let progress := min ((count : ℚ) / 10) 1
      let base := minS + (maxS - minS) * progress
      let jitter := base * (1/10)
      (min (base + uniform (-jitter) jitter t) maxS, st')
  | .adaptive =>
      let signal := st.rateLimitSignals delayId
      let base := uniform minS maxS t
      (min (base * signal) maxS, st)

/-- `DelayResult`. -/
structure DelayResult where
  delayId : String
  actualDurationSeconds : ℚ
  strategyUsed : DelayStrategy
  wasCancelled : Bool
deriving DecidableEq

/-- `IntelligentDelayService.delay`: optional arguments default from the
config, `max_seconds` is clamped to `MAX_DELAY_SECONDS` (note: `min_seconds`
is not clamped), the duration comes from `_calculate_delay`, and a
cancelled sleep reports duration 0 with `was_cancelled=True`. -/
def delayCompute (cfg : DelayConfig) (st : ServiceState)
    (minSeconds maxSeconds : Option ℚ) (strategy : Option DelayStrategy)
    (delayId : String) (t : ℚ) (cancelled : Bool) :
    DelayResult × ServiceState :=
  let minS := minSeconds.getD cfg.minSeconds
  let maxS := min (maxSeconds.getD cfg.maxSeconds) MAX_DELAY_SECONDS
  let strat := strategy.getD cfg.strategy
  let r := calculateDelay cfg.jitterPercent st minS maxS strat delayId t
  if cancelled then
    ({ delayId := delayId, actualDurationSeconds := 0,
       strategyUsed := strat, wasCancelled := true }, r.2)
  else
    ({ delayId := delayId, actualDurationSeconds := r.1,
       strategyUsed := strat, wasCancelled := false }, r.2)

/-- A run of consecutive `delay` calls with the PROGRESSIVE strategy, the
`n`-th call using id `ids n`, threading the service state. -/
def progressiveCalls (jp : ℚ) (st : ServiceState) (minS maxS : ℚ)
    (ids : ℕ → String) (t : ℚ) : ℕ → ℚ × ServiceState
  | 0 => calculateDelay jp st minS maxS .progressive (ids 0) t
  | n + 1 =>
      calculateDelay jp (progressiveCalls jp st minS maxS ids t n).2
        minS maxS .progressive (ids (n + 1)) t

/-! ### message_buffer.py : push_message -/

/-- `BUFFER_TTL_SECONDS = 8`. -/
def BUFFER_TTL_SECONDS : ℕ := 8

/-- One conversation's Redis list key: its entries (serialized messages)
and its TTL (none = no expiry set). -/
structure BufferStore where
  list : List String
  ttl : Option ℕ
deriving DecidableEq

/-- The three Redis commands `push_message` awaits, in source order. -/
inductive PushOp
  | rpush (m : String)
  | expire (n : ℕ)
  | llen
deriving DecidableEq

/-- Effect of one Redis command on the conversation key, paired with the
integer the command returns. -/
def applyPushOp (s : BufferStore) : PushOp → BufferStore × ℕ
  | .rpush m => ({ list := s.list ++ [m], ttl := s.ttl }, s.list.length + 1)
  | .expire n => ({ s with ttl := some n }, 1)
  | .llen => (s, s.list.length)

/-- Run a command sequence; the returned integer is the last command's
reply (0 for the empty sequence). -/
def runPushOps (s : BufferStore) : List PushOp → BufferStore × ℕ
  | [] => (s, 0)
  | [op] => applyPushOp s op
  | op :: rest => runPushOps (applyPushOp s op).1 rest

/-- The command sequence `push_message` issues: RPUSH, then EXPIRE with the
8-second debounce window, then LLEN. -/
def pushTrace (m : String) : List PushOp :=
  [.rpush m, .expire BUFFER_TTL_SECONDS, .llen]

/-- `MessageBufferService.push_message`: when Redis is unavailable it
returns 0 and leaves the store untouched (the caller sees no exception:
errors are caught and logged); otherwise it runs the trace and returns the
final LLEN reply. -/
def pushMessage (available : Bool) (s : BufferStore) (m : String) :
    BufferStore × ℕ :=
  if available then runPushOps s (pushTrace m) else (s, 0)

/-! ### message_buffer.py : get_buffer (drain with distributed lock)

Each awaited Redis command is one atomic step.  A drain is a small program
counter machine over the shared state (lock key, buffer list):
`SET lock NX` / `LRANGE` / `DEL buffer` / `DEL lock` (the last in a
`finally`).  Exceptions are caught and surface as a `none` result. -/

/-- Shared Redis state for one conversation key: whether the drain lock key
exists, and the buffer list contents. -/
structure DrainState where
  lock : Bool
  buffer : List String
deriving DecidableEq

/-- Program counter of one `get_buffer` call. -/
inductive DrainPC
  | start
  | readList
  | delBuf (msgs : List String)
  | relLock (res : Option (List String))
  | finished (res : Option (List String))
deriving DecidableEq

/-- One atomic step of a drain: `start` does `SET lock "1" NX` (on failure
the call returns `None`); `readList` does `LRANGE 0 -1` (empty list means
returning `None` after releasing the lock); `delBuf` does `DEL key`;
`relLock` does `DEL lock` and returns. -/
def drainStep (s : DrainState) : DrainPC → DrainState × DrainPC
  | .start =>
      if s.lock then (s, .finished none)
      else ({ s with lock := true }, .readList)
  | .readList =>
      if s.buffer.isEmpty then (s, .relLock none)
      else (s, .delBuf s.buffer)
  | .delBuf msgs => ({ s with buffer := [] }, .relLock (some msgs))
  | .relLock res => ({ s with lock := false }, .finished res)
  | .finished res => (s, .finished res)

/-- A drain at these counters holds the lock (acquired, not yet released). -/
def holdsLock : DrainPC → Bool
  | .readList => true
  | .delBuf _ => true
  | .relLock _ => true
  | _ => false

/-- A drain at these counters has read a non-empty buffer and will (or did)
return it. -/
def gotPacket : DrainPC → Bool
  | .delBuf _ => true
  | .relLock (some _) => true
  | .finished (some _) => true
  | _ => false

/-- A drain that has read a non-empty buffer and already deleted the buffer
key. -/
def freedSome : DrainPC → Bool
  | .relLock (some _) => true
  | .finished (some _) => true
  | _ => false

/-- Two concurrent drains over the shared conversation state. -/
structure SysState where
  store : DrainState
  p0 : DrainPC
  p1 : DrainPC

/-- Scheduler step: `false` steps drain 0, `true` steps drain 1. -/
def sysStep (c : Bool) (st : SysState) : SysState :=
  if c then
    { st with store := (drainStep st.store st.p1).1, p1 := (drainStep st.store st.p1).2 }
  else
    { st with store := (drainStep st.store st.p0).1, p0 := (drainStep st.store st.p0).2 }

/-- Run an arbitrary interleaving of the two drains. -/
def runSched (st : SysState) : List Bool → SysState
  | [] => st
  | c :: rest => runSched (sysStep c st) rest

/-- Mirror image of the system state (drain 1 viewed as drain 0). -/
def swapSys (st : SysState) : SysState :=
  { store := st.store, p0 := st.p1, p1 := st.p0 }

/-- Safety invariant of the two-drain system: the lock key exists exactly
when some drain holds it, at most one drain holds it, at most one drain
ever obtains a packet, and once a packet holder has deleted the buffer key
the buffer is empty. -/
def DrainInv (st : SysState) : Prop :=
  st.store.lock = (holdsLock st.p0 || holdsLock st.p1) ∧
  ¬(holdsLock st.p0 = true ∧ holdsLock st.p1 = true) ∧
  ¬(gotPacket st.p0 = true ∧ gotPacket st.p1 = true) ∧
  (freedSome st.p0 = true → st.store.buffer = []) ∧
  (freedSome st.p1 = true → st.store.buffer = [])

/-- One step of a solo drain. -/
def stepOnce (x : DrainState × DrainPC) : DrainState × DrainPC :=
  drainStep x.1 x.2

/-- A solo (uncontended) drain runs to completion in at most four atomic
steps. -/
def drainRun (s : DrainState) : DrainState × DrainPC :=
  stepOnce (stepOnce (stepOnce (stepOnce (s, .start))))

/-- Result of a completed solo drain. -/
def drainResult (s : DrainState) : Option (List String) :=
  match (drainRun s).2 with
  | .finished r => r
  | _ => none

/-! ### schemas/whatsapp.py -/

/-- The `content_type` literal of `StandardMessage`. -/
inductive ContentType
  | text
  | audio
  | image
  | video
  | document
  | sticker
  | location
  | contact
deriving DecidableEq

/-- `StandardMessage` (fields relevant to the buffer).  Timestamps are
modelled as integers with the datetime order. -/
structure StandardMessage where
  messageId : String
  chatId : String
  phone : String
  content : String
  contentType : ContentType
  mediaDurationSeconds : Option ℕ
  isFromMe : Bool
  timestamp : ℤ
deriving DecidableEq

/-- The `normalize_phone` field validator: strip non-digits; an 11-digit or
10-digit result gets the country code `"55"` prefixed. -/
def normalizePhone (v : String) : String :=
  let digits := v.data.filter Char.isDigit
  if digits.length = 11 then String.mk ('5' :: '5' :: digits)
  else if digits.length = 10 then String.mk ('5' :: '5' :: digits)
  else String.mk digits

/-- Constructing a `StandardMessage`: pydantic runs `normalize_phone` on the
`phone` field at construction. -/
def mkStandardMessage (messageId chatId rawPhone content : String)
    (ct : ContentType) (dur : Option ℕ) (fromMe : Bool) (ts : ℤ) :
    StandardMessage :=
  { messageId := messageId, chatId := chatId, phone := normalizePhone rawPhone,
    content := content, contentType := ct, mediaDurationSeconds := dur,
    isFromMe := fromMe, timestamp := ts }

/-- `BufferedMessagePacket`. -/
structure BufferedMessagePacket where
  chatId : String
  tenantId : String
  phone : String
  messages : List StandardMessage
  totalDurationSeconds : ℕ
  firstMessageAt : ℤ
  lastMessageAt : ℤ
deriving DecidableEq

/-- The `combined_text` property: contents of entries that are non-empty
and text-typed, joined with a single space (`" ".join(texts)`). -/
def combinedText (p : BufferedMessagePacket) : String :=
  String.intercalate " "
    ((p.messages.filter
        (fun m => (m.content != "") && (m.contentType == ContentType.text))).map
      (fun m => m.content))

/-- Accumulator of the parsing loop in `get_buffer`: messages in append
order, the first truthy phone, running min/max timestamps, and the running
audio duration sum (`if msg.media_duration_seconds:` skips `None` and 0). -/
structure PacketAcc where
  msgs : List StandardMessage
  phone : String
  firstTs : Option ℤ
  lastTs : Option ℤ
  totalDur : ℕ

/-- One iteration of the `for raw in messages_raw:` loop. -/
def packetStep (acc : PacketAcc) (m : StandardMessage) : PacketAcc :=
  { msgs := acc.msgs ++ [m]
    phone := if acc.phone = "" then m.phone else acc.phone
    firstTs :=
      match acc.firstTs with
      | none => some m.timestamp
      | some f => if m.timestamp < f then some m.timestamp else some f
    lastTs :=
      match acc.lastTs with
      | none => some m.timestamp
      | some l => if l < m.timestamp then some m.timestamp else some l
    totalDur :=
      match m.mediaDurationSeconds with
      | none => acc.totalDur
      | some d => if d = 0 then acc.totalDur else acc.totalDur + d }

/-- The packet-building tail of `get_buffer`: `None` on an empty read,
otherwise the loop over all entries followed by the
`BufferedMessagePacket(...)` construction (`first_timestamp or utcnow()`
falls back to `now` only when no message was parsed). -/
def buildPacket (tenantId : String) (msgs : List StandardMessage) (now : ℤ) :
    Option BufferedMessagePacket :=
  match msgs with
  | [] => none
  | m0 :: _ =>
      let acc := msgs.foldl packetStep ⟨[], "", none, none, 0⟩
      some { chatId := m0.chatId, tenantId := tenantId, phone := acc.phone,
             messages := acc.msgs, totalDurationSeconds := acc.totalDur,
             firstMessageAt := acc.firstTs.getD now,
             lastMessageAt := acc.lastTs.getD now }

/-! ### workers/campaign_dispatcher.py -/

/-- Observable actions of `_process_campaign_batch`'s delivery loop:
a delivery reaching `sent`, a delivery marked `failed` with its error
message and the written `retry_count`, the daily counter INCR, and one
`delay_service.delay` call. -/
inductive DispatchEvent
  | sent (deliveryId : String)
  | failed (deliveryId : String) (errorMessage : String) (retryCount : ℕ)
  | incrDailyCounter
  | interSendDelay
deriving DecidableEq

/-- The `for delivery in deliveries.data:` loop.  `outcome d = none` means
`_send_delivery` succeeds for delivery `d`; `outcome d = some e` means it
raises with message `e`.  On success: counter INCR then the inter-send
delay.  On failure: the `except` branch marks the delivery `failed`,
records the error, writes `retry_count = 1`, and continues with the next
delivery; no delay is applied on this path. -/
def processDeliveries (outcome : String → Option String) :
    List String → List DispatchEvent
  | [] => []
  | d :: rest =>
      match outcome d with
      | none =>
          .sent d :: .incrDailyCounter :: .interSendDelay ::
            processDeliveries outcome rest
      | some e => .failed d e 1 :: processDeliveries outcome rest

/-- `_process_campaign_batch` daily-cap gate plus delivery loop: when the
campaign's today-sent counter has reached `max_daily_volume` the function
returns before touching any delivery. -/
def processCampaignBatch (dailySent maxDailyVolume : ℕ)
    (deliveries : List String) (outcome : String → Option String) :
    List DispatchEvent :=
  if maxDailyVolume ≤ dailySent then []
  else processDeliveries outcome deliveries

/-! ### services/reengagement.py -/

/-- A conversation row as read by the watchdog query. -/
structure Conversation where
  id : String
  status : String
  mode : String
  lastMessageAt : ℤ
  reengagementAttempts : ℕ
  phoneNumber : String
deriving DecidableEq

/-- `["ai", "agent", "human_agent"]`: senders counting as the business
side. -/
def businessSenders : List String := ["ai", "agent", "human_agent"]

/-- The Supabase query filters of `_check_conversations`: status `active`,
mode `ai`, `last_message_at < threshold`, `reengagement_attempts <
max_attempts`. -/
def candidateFilter (threshold : ℤ) (maxAttempts : ℕ) (c : Conversation) :
    Bool :=
  (c.status == "active") && (c.mode == "ai") &&
    decide (c.lastMessageAt < threshold) &&
    decide (c.reengagementAttempts < maxAttempts)

/-- The per-candidate gate: fetch the most recent message's sender; skip
the conversation when there is none or when the sender is not in
`businessSenders`. -/
def senderGate (lastSender : String → Option String) (c : Conversation) :
    Bool :=
  match lastSender c.id with
  | none => false
  | some s => businessSenders.contains s

/-- The set of conversations the watchdog fires for on one tick. -/
def selectConversations (threshold : ℤ) (maxAttempts : ℕ)
    (lastSender : String → Option String) (convs : List Conversation) :
    List Conversation :=
  (convs.filter (candidateFilter threshold maxAttempts)).filter
    (senderGate lastSender)

/-- Observable actions of event emission: persisting the attempt counter on
the conversation row, and invoking the registered handlers with an event
carrying this attempt number. -/
inductive ReengagementAction
  | persistAttempts (conversationId : String) (attempts : ℕ)
  | invokeHandlers (conversationId : String) (attemptNumber : ℕ)
deriving DecidableEq

/-- The watchdog emission path (`_check_conversations`, lines 207-224):
build the event with `attempt_number = attempts + 1`, persist the
incremented counter on the conversation row, then invoke handlers.
`db` maps conversation id to its stored `reengagement_attempts`. -/
def watchdogFire (db : String → ℕ) (convId : String) :
    (String → ℕ) × List ReengagementAction :=
  let n := db convId + 1
  (fun k => if k = convId then n else db k,
   [.persistAttempts convId n, .invokeHandlers convId n])

/-- The manual emission path (`trigger_manual`): build the event with
`attempt_number = attempts + 1` and invoke handlers; the stored counter is
left unchanged (no update statement on this path). -/
def triggerManual (db : String → ℕ) (convId : String) :
    (String → ℕ) × List ReengagementAction :=
  let n := db convId + 1
  (db, [.invokeHandlers convId n])

/-- `n`-th successive watchdog fire for the same conversation, threading the
persisted counter. -/
def watchdogNthFire (db : String → ℕ) (convId : String) :
    ℕ → (String → ℕ) × List ReengagementAction
  | 0 => watchdogFire db convId
  | n + 1 => watchdogFire (watchdogNthFire db convId n).1 convId

/-! ## Theorems -/

/-- Shared bound lemma for `_calculate_delay`: with a valid configuration
(`0 ≤ min_s ≤ max_s`), random draws in range and a rate-limit signal in the
setter's clamp range, every non-FIXED strategy stays in `[0, max_s]`, and the
FIXED strategy stays in `[0, min_s * (1 + jitter_percent/100)]`. -/
theorem calcDelay_bounds (jp : ℚ) (st : ServiceState) (m M : ℚ)
    (strat : DelayStrategy) (delayId : String) (t : ℚ)
    (ht0 : 0 ≤ t) (ht1 : t ≤ 1) (hjp : 0 ≤ jp)
    (hsig : 1/2 ≤ st.rateLimitSignals delayId)
    (hm0 : 0 ≤ m) (hmM : m ≤ M) :
    0 ≤ (calculateDelay jp st m M strat delayId t).1 ∧
    (strat ≠ DelayStrategy.fixed → (calculateDelay jp st m M strat delayId t).1 ≤ M) ∧
    (strat = DelayStrategy.fixed →
      (calculateDelay jp st m M strat delayId t).1 ≤ m * (1 + jp / 100)) := by
  have hM0 : 0 ≤ M := hm0.trans hmM
  cases strat with
  | fixed =>
      simp only [calculateDelay, uniform]
      have hj : 0 ≤ m * (jp / 100) := by positivity
      have hbound0 : 0 ≤ m * (1 + jp / 100) :=
        mul_nonneg hm0 (by linarith [div_nonneg hjp (by norm_num : (0:ℚ) ≤ 100)])
      refine ⟨le_max_left 0 _, fun h => absurd rfl h, fun _ => ?_⟩
      apply max_le hbound0
      nlinarith [mul_nonneg hj (sub_nonneg.mpr ht1)]
  | randomRange =>
      simp only [calculateDelay, uniform]
      have hup : m + (M - m) * t ≤ M := by
        nlinarith [mul_nonneg (sub_nonneg.mpr hmM) (sub_nonneg.mpr ht1)]
      refine ⟨?_, fun _ => hup, fun h => DelayStrategy.noConfusion h⟩
      nlinarith [mul_nonneg (sub_nonneg.mpr hmM) ht0]
  | progressive =>
      simp only [calculateDelay, uniform]
      generalize hc : ((st.progressiveCounter (progressiveKey delayId) : ℕ) : ℚ) = c
      have hc0 : (0:ℚ) ≤ c := by rw [← hc]; positivity
      have hp0 : 0 ≤ min (c / 10) 1 := le_min (by linarith) zero_le_one
      have hp1 : min (c / 10) 1 ≤ 1 := min_le_right _ _
      have hmul : 0 ≤ (M - m) * min (c / 10) 1 := mul_nonneg (sub_nonneg.mpr hmM) hp0
      have hb0 : 0 ≤ m + (M - m) * min (c / 10) 1 := by linarith
      have hx0 : 0 ≤ (m + (M - m) * min (c / 10) 1) +
          (-((m + (M - m) * min (c / 10) 1) * (1/10)) +
            ((m + (M - m) * min (c / 10) 1) * (1/10) -
              -((m + (M - m) * min (c / 10) 1) * (1/10))) * t) := by
        nlinarith [mul_nonneg hb0 ht0]
      exact ⟨le_min hx0 hM0, fun _ => min_le_right _ _,
        fun h => DelayStrategy.noConfusion h⟩
  | adaptive =>
      simp only [calculateDelay, uniform]
      have hb0 : 0 ≤ m + (M - m) * t := by
        nlinarith [mul_nonneg (sub_nonneg.mpr hmM) ht0]
      have hs0 : 0 ≤ st.rateLimitSignals delayId := le_trans (by norm_num) hsig
      exact ⟨le_min (mul_nonneg hb0 hs0) hM0, fun _ => min_le_right _ _,
        fun h => DelayStrategy.noConfusion h⟩

/-- C1 (counterexample): a call with `min_seconds = 60`, `max_seconds = 60`
and the FIXED strategy (jitter draw at midpoint) returns
`actual_duration_seconds = 60 > 50`: the planner clamps only `max_seconds`,
never `min_seconds`, so the claimed hard [0, 50] invariant fails for
caller-supplied configuration. -/
theorem delay_ceiling_counterexample :
    (delayCompute defaultConfig initialState (some 60) (some 60)
        (some DelayStrategy.fixed) "x" (1/2) false).1.actualDurationSeconds = 60 ∧
    ¬((delayCompute defaultConfig initialState (some 60) (some 60)
        (some DelayStrategy.fixed) "x" (1/2) false).1.actualDurationSeconds ≤ 50) := by
  constructor
  · norm_num [delayCompute, calculateDelay, uniform, defaultConfig, initialState,
      MAX_DELAY_SECONDS]
  · norm_num [delayCompute, calculateDelay, uniform, defaultConfig, initialState,
      MAX_DELAY_SECONDS]

/-- C1 (amended): the ceiling is enforced by clamping `max_seconds` at 50
only.  Whenever the effective `min_seconds` is non-negative and does not
exceed the clamped `max_seconds`, every strategy other than FIXED returns
`actual_duration_seconds` in `[0, 50]`, and the FIXED strategy returns a
duration in `[0, min_seconds * (1 + jitter_percent/100)]`, which can
exceed 50. -/
theorem delay_duration_bounds
    (cfg : DelayConfig) (st : ServiceState)
    (minSeconds maxSeconds : Option ℚ) (strategy : Option DelayStrategy)
    (delayId : String) (t : ℚ) (cancelled : Bool)
    (ht0 : 0 ≤ t) (ht1 : t ≤ 1) (hjp : 0 ≤ cfg.jitterPercent)
    (hsig : 1/2 ≤ st.rateLimitSignals delayId)
    (hmin0 : 0 ≤ minSeconds.getD cfg.minSeconds)
    (hminmax : minSeconds.getD cfg.minSeconds ≤
      min (maxSeconds.getD cfg.maxSeconds) MAX_DELAY_SECONDS) :
    0 ≤ (delayCompute cfg st minSeconds maxSeconds strategy delayId t
          cancelled).1.actualDurationSeconds ∧
    ((delayCompute cfg st minSeconds maxSeconds strategy delayId t
          cancelled).1.strategyUsed ≠ DelayStrategy.fixed →
      (delayCompute cfg st minSeconds maxSeconds strategy delayId t
          cancelled).1.actualDurationSeconds ≤ 50) ∧
    ((delayCompute cfg st minSeconds maxSeconds strategy delayId t
          cancelled).1.strategyUsed = DelayStrategy.fixed →
      (delayCompute cfg st minSeconds maxSeconds strategy delayId t
          cancelled).1.actualDurationSeconds ≤
        minSeconds.getD cfg.minSeconds * (1 + cfg.jitterPercent / 100)) := by
  have h := calcDelay_bounds cfg.jitterPercent st (minSeconds.getD cfg.minSeconds)
    (min (maxSeconds.getD cfg.maxSeconds) MAX_DELAY_SECONDS)
    (strategy.getD cfg.strategy) delayId t ht0 ht1 hjp hsig hmin0 hminmax
  have hM50 : min (maxSeconds.getD cfg.maxSeconds) MAX_DELAY_SECONDS ≤ 50 := by
    have h50 := min_le_right (maxSeconds.getD cfg.maxSeconds) MAX_DELAY_SECONDS
    simp only [MAX_DELAY_SECONDS] at h50
    exact h50
  cases cancelled with
  | true =>
      simp only [delayCompute, if_true]
      refine ⟨le_refl 0, fun _ => by norm_num, fun _ => ?_⟩
      exact mul_nonneg hmin0
        (by linarith [div_nonneg hjp (by norm_num : (0:ℚ) ≤ 100)])
  | false =>
      simp only [delayCompute, if_false]
      exact ⟨h.1, fun hne => (h.2.1 hne).trans hM50, h.2.2⟩

/-- Witness for `delay_duration_bounds` at a concrete valid configuration. -/
theorem delay_duration_bounds_witness :
    0 ≤ (delayCompute defaultConfig initialState (some 10) (some 30)
          (some DelayStrategy.randomRange) "w" (1/2) false).1.actualDurationSeconds ∧
    ((delayCompute defaultConfig initialState (some 10) (some 30)
          (some DelayStrategy.randomRange) "w" (1/2) false).1.strategyUsed ≠
        DelayStrategy.fixed →
      (delayCompute defaultConfig initialState (some 10) (some 30)
          (some DelayStrategy.randomRange) "w" (1/2) false).1.actualDurationSeconds ≤ 50) ∧
    ((delayCompute defaultConfig initialState (some 10) (some 30)
          (some DelayStrategy.randomRange) "w" (1/2) false).1.strategyUsed =
        DelayStrategy.fixed →
      (delayCompute defaultConfig initialState (some 10) (some 30)
          (some DelayStrategy.randomRange) "w" (1/2) false).1.actualDurationSeconds ≤
        (some (10:ℚ)).getD defaultConfig.minSeconds *
          (1 + defaultConfig.jitterPercent / 100)) :=
  delay_duration_bounds defaultConfig initialState (some 10) (some 30)
    (some DelayStrategy.randomRange) "w" (1/2) false
    (by norm_num) (by norm_num) (by norm_num [defaultConfig])
    (by norm_num [initialState]) (by norm_num)
    (by norm_num [MAX_DELAY_SECONDS, defaultConfig])

/-- Consecutive progressive calls whose ids share a last-underscore prefix:
after the `n`-th call the shared counter holds `n + 1`, and the jitter-free
(expected) duration of the `n`-th call — the draw at the midpoint `t = 1/2`,
where the uniform jitter term vanishes — is
`min (minS + (maxS - minS) * min (n/10) 1) maxS`. -/
theorem progressiveCalls_half_spec (jp minS maxS : ℚ) (ids : ℕ → String)
    (hids : ∀ n, progressiveKey (ids n) = progressiveKey (ids 0)) :
    ∀ n, (progressiveCalls jp initialState minS maxS ids (1/2) n).2.progressiveCounter
          (progressiveKey (ids 0)) = n + 1 ∧
      (progressiveCalls jp initialState minS maxS ids (1/2) n).1 =
        min (minS + (maxS - minS) * min ((n : ℚ) / 10) 1) maxS := by
  intro n
  induction n with
  | zero =>
      simp only [progressiveCalls, calculateDelay, uniform, initialState]
      refine ⟨by simp, ?_⟩
      norm_num
      congr 1
      ring
  | succ n ih =>
      obtain ⟨ihc, ihv⟩ := ih
      simp only [progressiveCalls, calculateDelay, uniform]
      rw [hids (n + 1), ihc]
      refine ⟨by simp, ?_⟩
      push_cast
      congr 1
      ring

/-- C9: consecutive progressive-strategy calls sharing a `delay_id` prefix
have non-decreasing expected (jitter-free) delay, starting at `min_seconds`
on the first call, linearly interpolating `min → max` over the first ten
calls, and holding at `max_seconds` from the 11th call on. -/
theorem progressive_expected_delay (minS maxS jp : ℚ) (ids : ℕ → String)
    (hids : ∀ n, progressiveKey (ids n) = progressiveKey (ids 0))
    (hmM : minS ≤ maxS) :
    (∀ n, (progressiveCalls jp initialState minS maxS ids (1/2) n).1 ≤
       (progressiveCalls jp initialState minS maxS ids (1/2) (n + 1)).1) ∧
    (progressiveCalls jp initialState minS maxS ids (1/2) 0).1 = minS ∧
    (∀ n, n ≤ 10 → (progressiveCalls jp initialState minS maxS ids (1/2) n).1 =
       minS + (maxS - minS) * ((n : ℚ) / 10)) ∧
    (∀ n, 10 ≤ n → (progressiveCalls jp initialState minS maxS ids (1/2) n).1 = maxS) := by
  have hspec := progressiveCalls_half_spec jp minS maxS ids hids
  have hbase_le : ∀ n : ℕ, minS + (maxS - minS) * min ((n : ℚ) / 10) 1 ≤ maxS := by
    intro n
    have hp0 : 0 ≤ min ((n : ℚ) / 10) 1 := le_min (by positivity) zero_le_one
    have hp1 : min ((n : ℚ) / 10) 1 ≤ 1 := min_le_right _ _
    nlinarith [sub_nonneg.mpr hmM]
  have hval : ∀ n, (progressiveCalls jp initialState minS maxS ids (1/2) n).1 =
      minS + (maxS - minS) * min ((n : ℚ) / 10) 1 := by
    intro n
    rw [(hspec n).2]
    exact min_eq_left (hbase_le n)
  refine ⟨?_, ?_, ?_, ?_⟩
  · intro n
    rw [hval n, hval (n + 1)]
    have hmono : min ((n : ℚ) / 10) 1 ≤ min (((n + 1 : ℕ) : ℚ) / 10) 1 := by
      apply min_le_min _ le_rfl
      push_cast
      linarith
    nlinarith [sub_nonneg.mpr hmM, hmono]
  · rw [hval 0]
    norm_num
  · intro n hn
    rw [hval n]
    have h1 : ((n : ℚ) / 10) ≤ 1 := by
      rw [div_le_one (by norm_num : (0:ℚ) < 10)]
      exact_mod_cast (by exact_mod_cast hn : (n : ℚ) ≤ 10)
    rw [min_eq_left h1]
  · intro n hn
    rw [hval n]
    have h1 : (1:ℚ) ≤ (n : ℚ) / 10 := by
      rw [le_div_iff₀ (by norm_num : (0:ℚ) < 10)]
      exact_mod_cast (by exact_mod_cast hn : (10 : ℚ) ≤ (n : ℚ))
    rw [min_eq_right h1]
    ring

/-- Witness for `progressive_expected_delay` with the campaign defaults
`min = 20`, `max = 50` and a shared batch id. -/
theorem progressive_expected_delay_witness :
    (∀ n, (progressiveCalls 10 initialState 20 50 (fun _ => "batch") (1/2) n).1 ≤
       (progressiveCalls 10 initialState 20 50 (fun _ => "batch") (1/2) (n + 1)).1) ∧
    (progressiveCalls 10 initialState 20 50 (fun _ => "batch") (1/2) 0).1 = 20 ∧
    (∀ n, n ≤ 10 →
      (progressiveCalls 10 initialState 20 50 (fun _ => "batch") (1/2) n).1 =
        20 + (50 - 20) * ((n : ℚ) / 10)) ∧
    (∀ n, 10 ≤ n →
      (progressiveCalls 10 initialState 20 50 (fun _ => "batch") (1/2) n).1 = 50) :=
  progressive_expected_delay 20 50 10 (fun _ => "batch") (fun _ => rfl)
    (by norm_num)

/-- C5: on a tick where the campaign's today-sent counter has already
reached `max_daily_volume`, `_process_campaign_batch` performs no work at
all for that campaign: no delivery is attempted, no status written, no
counter incremented, no delay taken. -/
theorem campaign_daily_cap (dailySent maxDailyVolume : ℕ)
    (deliveries : List String) (outcome : String → Option String)
    (h : maxDailyVolume ≤ dailySent) :
    processCampaignBatch dailySent maxDailyVolume deliveries outcome = [] := by
  simp [processCampaignBatch, h]

/-- Witness for `campaign_daily_cap`: the spec's example, cap 5 with the
counter already at 5. -/
theorem campaign_daily_cap_witness :
    processCampaignBatch 5 5 ["d1", "d2"] (fun _ => none) = [] :=
  campaign_daily_cap 5 5 ["d1", "d2"] (fun _ => none) (le_refl 5)

/-- A succeeding delivery leaves a `sent` event in the batch trace. -/
theorem processDeliveries_sent_mem (outcome : String → Option String)
    (d : String) (ho : outcome d = none) :
    ∀ ds : List String, d ∈ ds →
      DispatchEvent.sent d ∈ processDeliveries outcome ds := by
  intro ds
  induction ds with
  | nil => intro h; cases h
  | cons a rest ih =>
      intro hmem
      rcases List.mem_cons.mp hmem with h | h
      · subst h
        simp [processDeliveries, ho]
      · cases ha : outcome a <;>
          simp [processDeliveries, ha, ih h]

/-- A failing delivery leaves a `failed` event carrying its error message
and `retry_count = 1` in the batch trace. -/
theorem processDeliveries_failed_mem (outcome : String → Option String)
    (d e : String) (ho : outcome d = some e) :
    ∀ ds : List String, d ∈ ds →
      DispatchEvent.failed d e 1 ∈ processDeliveries outcome ds := by
  intro ds
  induction ds with
  | nil => intro h; cases h
  | cons a rest ih =>
      intro hmem
      rcases List.mem_cons.mp hmem with h | h
      · subst h
        simp [processDeliveries, ho]
      · cases ha : outcome a <;>
          simp [processDeliveries, ha, ih h]

/-- A succeeding delivery is never marked failed. -/
theorem processDeliveries_no_failed (outcome : String → Option String)
    (d : String) (ho : outcome d = none) (e : String) (r : ℕ) :
    ∀ ds : List String,
      DispatchEvent.failed d e r ∉ processDeliveries outcome ds := by
  intro ds
  induction ds with
  | nil => simp [processDeliveries]
  | cons a rest ih =>
      cases ha : outcome a with
      | none => simp [processDeliveries, ha, ih]
      | some e' =>
          simp only [processDeliveries, ha, List.mem_cons]
          rintro (h | h)
          · cases h
            rw [ho] at ha
            cases ha
          · exact ih h

/-- A failing delivery is never marked sent. -/
theorem processDeliveries_no_sent (outcome : String → Option String)
    (d e : String) (ho : outcome d = some e) :
    ∀ ds : List String,
      DispatchEvent.sent d ∉ processDeliveries outcome ds := by
  intro ds
  induction ds with
  | nil => simp [processDeliveries]
  | cons a rest ih =>
      cases ha : outcome a with
      | some e' => simp [processDeliveries, ha, ih]
      | none =>
          simp only [processDeliveries, ha, List.mem_cons]
          rintro (h | h | h | h)
          · cases h
            rw [ho] at ha
            cases ha
          · cases h
          · cases h
          · exact ih h

/-- The batch trace contains exactly one inter-send delay per *successful*
delivery (none after failures). -/
theorem processDeliveries_delay_count (outcome : String → Option String) :
    ∀ ds : List String,
      (processDeliveries outcome ds).count DispatchEvent.interSendDelay =
        (ds.filter (fun d => (outcome d).isNone)).length := by
  intro ds
  induction ds with
  | nil => simp [processDeliveries]
  | cons a rest ih =>
      cases ha : outcome a with
      | none => simp [processDeliveries, ha, List.count_cons, ih]
      | some e => simp [processDeliveries, ha, List.count_cons, ih]

/-- C8 (counterexample): in a two-task batch where the first task fails,
the trace is `failed t1 :: sent t2 :: ...` — the event immediately after
the failure is the next send attempt, and only one inter-send delay occurs
for the two tasks. The code's delay call sits inside the `try:` after
`_send_delivery`, so a failing task skips straight to `except` and no
delay is applied before moving on — refuting "after every task — success
or failure — the dispatcher applies the configured inter-send delay". -/
theorem batch_delay_after_failure_counterexample :
    processCampaignBatch 0 200 ["t1", "t2"]
        (fun d => if d = "t1" then some "boom" else none) =
      [DispatchEvent.failed "t1" "boom" 1, DispatchEvent.sent "t2",
       DispatchEvent.incrDailyCounter, DispatchEvent.interSendDelay] ∧
    (processCampaignBatch 0 200 ["t1", "t2"]
        (fun d => if d = "t1" then some "boom" else none)).count
        DispatchEvent.interSendDelay = 1 := by
  constructor
  · rfl
  · rfl

/-- C8 (amended): a failure while sending marks only that task failed, with
the error message recorded and `retry_count` written as 1, and never aborts
the batch — every delivery in the batch is attempted and reaches a terminal
status (`sent` on success, `failed` on failure) — and the dispatcher
applies the inter-send delay after each *successful* task (exactly one
delay per success; none after a failure). -/
theorem batch_resilience (outcome : String → Option String)
    (deliveries : List String) :
    (∀ d ∈ deliveries,
      (outcome d = none →
        DispatchEvent.sent d ∈ processDeliveries outcome deliveries ∧
        ∀ e r, DispatchEvent.failed d e r ∉ processDeliveries outcome deliveries) ∧
      (∀ e, outcome d = some e →
        DispatchEvent.failed d e 1 ∈ processDeliveries outcome deliveries ∧
        DispatchEvent.sent d ∉ processDeliveries outcome deliveries)) ∧
    (processDeliveries outcome deliveries).count DispatchEvent.interSendDelay =
      (deliveries.filter (fun d => (outcome d).isNone)).length := by
  refine ⟨?_, processDeliveries_delay_count outcome deliveries⟩
  intro d hd
  constructor
  · intro ho
    exact ⟨processDeliveries_sent_mem outcome d ho deliveries hd,
      fun e r => processDeliveries_no_failed outcome d ho e r deliveries⟩
  · intro e ho
    exact ⟨processDeliveries_failed_mem outcome d e ho deliveries hd,
      processDeliveries_no_sent outcome d e ho deliveries⟩

/-- Witness for `batch_resilience`: the spec's 5-task batch with task 3
raising. -/
theorem batch_resilience_witness :
    DispatchEvent.sent "t1" ∈ processDeliveries
        (fun d => if d = "t3" then some "err" else none)
        ["t1", "t2", "t3", "t4", "t5"] ∧
    DispatchEvent.failed "t3" "err" 1 ∈ processDeliveries
        (fun d => if d = "t3" then some "err" else none)
        ["t1", "t2", "t3", "t4", "t5"] ∧
    DispatchEvent.sent "t5" ∈ processDeliveries
        (fun d => if d = "t3" then some "err" else none)
        ["t1", "t2", "t3", "t4", "t5"] :=
  ⟨((batch_resilience (fun d => if d = "t3" then some "err" else none)
      ["t1", "t2", "t3", "t4", "t5"]).1 "t1" (by simp)).1 (by decide) |>.1,
   ((batch_resilience (fun d => if d = "t3" then some "err" else none)
      ["t1", "t2", "t3", "t4", "t5"]).1 "t3" (by simp)).2 "err" (by decide) |>.1,
   ((batch_resilience (fun d => if d = "t3" then some "err" else none)
      ["t1", "t2", "t3", "t4", "t5"]).1 "t5" (by simp)).1 (by decide) |>.1⟩

/-- The phone carried by the parsing loop's accumulator is either the
accumulator's incoming phone or the phone of one of the folded messages. -/
theorem packetFold_phone :
    ∀ (msgs : List StandardMessage) (acc : PacketAcc),
      (msgs.foldl packetStep acc).phone = acc.phone ∨
      ∃ m ∈ msgs, (msgs.foldl packetStep acc).phone = m.phone := by
  intro msgs
  induction msgs with
  | nil => intro acc; exact Or.inl rfl
  | cons m rest ih =>
      intro acc
      rw [List.foldl_cons]
      rcases ih (packetStep acc m) with h | ⟨m', hm', h⟩
      · by_cases hp : acc.phone = ""
        · right
          refine ⟨m, List.mem_cons_self m rest, ?_⟩
          rw [h]
          simp [packetStep, hp]
        · left
          rw [h]
          simp [packetStep, hp]
      · exact Or.inr ⟨m', List.mem_cons_of_mem m hm', h⟩

/-- C10: `normalize_phone` strips every non-digit character and prefixes
the country code `"55"` exactly when the stripped string has 10 or 11
digits; pydantic applies it at `StandardMessage` construction, so every
constructed message — and hence the phone of every packet built from
buffered messages — is a digits-only string. -/
theorem phone_normalization :
    (∀ v : String, ∀ c ∈ (normalizePhone v).data, c.isDigit = true) ∧
    (∀ v : String,
      (v.data.filter Char.isDigit).length = 10 ∨
        (v.data.filter Char.isDigit).length = 11 →
      normalizePhone v = String.mk ('5' :: '5' :: v.data.filter Char.isDigit)) ∧
    (∀ (mid cid raw content : String) (ct : ContentType) (dur : Option ℕ)
        (fm : Bool) (ts : ℤ),
      (mkStandardMessage mid cid raw content ct dur fm ts).phone =
        normalizePhone raw) ∧
    (∀ (tid : String) (msgs : List StandardMessage) (now : ℤ)
        (p : BufferedMessagePacket),
      buildPacket tid msgs now = some p →
      (∀ m ∈ msgs, ∀ c ∈ m.phone.data, c.isDigit = true) →
      ∀ c ∈ p.phone.data, c.isDigit = true) := by
  refine ⟨?_, ?_, fun _ _ _ _ _ _ _ _ => rfl, ?_⟩
  · intro v c hc
    simp only [normalizePhone] at hc
    split_ifs at hc <;> simp only [String.mk, List.mem_cons] at hc
    · rcases hc with h | h | h
      · subst h; decide
      · subst h; decide
      · exact (List.mem_filter.mp h).2
    · rcases hc with h | h | h
      · subst h; decide
      · subst h; decide
      · exact (List.mem_filter.mp h).2
    · exact (List.mem_filter.mp hc).2
  · intro v hlen
    simp only [normalizePhone]
    rcases hlen with h | h <;> simp [h]
  · intro tid msgs now p hp hall c hc
    cases msgs with
    | nil => cases hp
    | cons m0 rest =>
        simp only [buildPacket, Option.some.injEq] at hp
        have hphone : p.phone = ((m0 :: rest).foldl packetStep ⟨[], "", none, none, 0⟩).phone := by
          rw [← hp]
        rcases packetFold_phone (m0 :: rest) ⟨[], "", none, none, 0⟩ with h | ⟨m', hm', h⟩
        · rw [hphone, h] at hc
          cases hc
        · rw [hphone, h] at hc
          exact hall m' hm' c hc

/-- Witness for `phone_normalization`: a Brazilian mobile number with
punctuation. -/
theorem phone_normalization_witness :
    (∀ c ∈ (normalizePhone "(11) 98765-4321").data, c.isDigit = true) ∧
    normalizePhone "(11) 98765-4321" =
      String.mk ('5' :: '5' :: "(11) 98765-4321".data.filter Char.isDigit) :=
  ⟨phone_normalization.1 "(11) 98765-4321",
   phone_normalization.2.1 "(11) 98765-4321" (Or.inr (by decide))⟩

/-- C3: with the store reachable, `push_message` appends the serialized
message, then resets the key's TTL to the 8-second debounce window, and
returns the list's new length; at every prefix of the command sequence, if
the TTL has been touched the message is already in the list (append
strictly precedes TTL reset); with the store unavailable it returns 0 and
performs no command (errors are swallowed, not raised). -/
theorem push_message_order_and_count (s : BufferStore) (m : String) :
    pushMessage true s m =
      ({ list := s.list ++ [m], ttl := some BUFFER_TTL_SECONDS }, s.list.length + 1) ∧
    (∀ k, (runPushOps s ((pushTrace m).take k)).1.ttl ≠ s.ttl →
       m ∈ (runPushOps s ((pushTrace m).take k)).1.list) ∧
    pushMessage false s m = (s, 0) := by
  refine ⟨?_, ?_, rfl⟩
  · simp [pushMessage, pushTrace, runPushOps, applyPushOp]
  · intro k
    match k with
    | 0 => intro h; exact absurd rfl h
    | 1 =>
        intro h
        simp [pushTrace, runPushOps, applyPushOp] at h
    | 2 =>
        intro _
        simp [pushTrace, runPushOps, applyPushOp]
    | (n + 3) =>
        intro _
        simp [pushTrace, runPushOps, applyPushOp]

/-- Witness for `push_message_order_and_count` on a one-element buffer. -/
theorem push_message_order_and_count_witness :
    pushMessage true ⟨["a"], none⟩ "b" =
      ({ list := ["a"] ++ ["b"], ttl := some BUFFER_TTL_SECONDS },
        (["a"] : List String).length + 1) ∧
    "b" ∈ (runPushOps ⟨["a"], none⟩ ((pushTrace "b").take 2)).1.list :=
  ⟨(push_message_order_and_count ⟨["a"], none⟩ "b").1,
   (push_message_order_and_count ⟨["a"], none⟩ "b").2.1 2 (by decide)⟩

/-- C6: on any tick, a conversation is selected only if its stored attempt
count is still below `max_attempts` and its most recent message has a
business-side sender (`ai`, `agent` or `human_agent`); consequently a
conversation whose last message came from the customer is never selected
regardless of silence, and one at `max_attempts` is never selected even if
silence exceeds the threshold. -/
theorem watchdog_gating (threshold : ℤ) (maxAttempts : ℕ)
    (lastSender : String → Option String) (convs : List Conversation)
    (c : Conversation) :
    (c ∈ selectConversations threshold maxAttempts lastSender convs →
      c.reengagementAttempts < maxAttempts ∧
      ∃ s, lastSender c.id = some s ∧ s ∈ businessSenders) ∧
    ((∀ s, lastSender c.id = some s → s ∉ businessSenders) →
      c ∉ selectConversations threshold maxAttempts lastSender convs) ∧
    (maxAttempts ≤ c.reengagementAttempts →
      c ∉ selectConversations threshold maxAttempts lastSender convs) := by
  have hmem : c ∈ selectConversations threshold maxAttempts lastSender convs →
      candidateFilter threshold maxAttempts c = true ∧
      senderGate lastSender c = true := by
    intro h
    unfold selectConversations at h
    have h2 := List.mem_filter.mp h
    exact ⟨(List.mem_filter.mp h2.1).2, h2.2⟩
  refine ⟨?_, ?_, ?_⟩
  · intro h
    obtain ⟨hcand, hgate⟩ := hmem h
    simp only [candidateFilter, Bool.and_eq_true, decide_eq_true_eq] at hcand
    refine ⟨hcand.2, ?_⟩
    unfold senderGate at hgate
    cases hs : lastSender c.id with
    | none => rw [hs] at hgate; cases hgate
    | some s =>
        rw [hs] at hgate
        exact ⟨s, rfl, by simpa using hgate⟩
  · intro hns hmemc
    obtain ⟨-, hgate⟩ := hmem hmemc
    unfold senderGate at hgate
    cases hs : lastSender c.id with
    | none => rw [hs] at hgate; cases hgate
    | some s =>
        rw [hs] at hgate
        exact hns s hs (by simpa using hgate)
  · intro hge hmemc
    obtain ⟨hcand, -⟩ := hmem hmemc
    simp only [candidateFilter, Bool.and_eq_true, decide_eq_true_eq] at hcand
    omega

/-- Witness for `watchdog_gating`: a conversation at the attempt cap, and
one whose last message came from the customer. -/
theorem watchdog_gating_witness :
    (({ id := "c1", status := "active", mode := "ai", lastMessageAt := 0,
        reengagementAttempts := 3, phoneNumber := "p" } : Conversation) ∉
      selectConversations 10 3 (fun _ => some "ai")
        [{ id := "c1", status := "active", mode := "ai", lastMessageAt := 0,
           reengagementAttempts := 3, phoneNumber := "p" }]) ∧
    (({ id := "c2", status := "active", mode := "ai", lastMessageAt := 0,
        reengagementAttempts := 0, phoneNumber := "p" } : Conversation) ∉
      selectConversations 10 3 (fun _ => some "customer")
        [{ id := "c2", status := "active", mode := "ai", lastMessageAt := 0,
           reengagementAttempts := 0, phoneNumber := "p" }]) :=
  ⟨(watchdog_gating 10 3 (fun _ => some "ai") _ _).2.2 (le_refl 3),
   (watchdog_gating 10 3 (fun _ => some "customer") _ _).2.1
     (fun s hs => by cases hs; decide)⟩

/-- Per-fire shape of the watchdog emission path: the `n`-th successive
fire persists `db c + n + 1` on the conversation row and then invokes
handlers with the same attempt number. -/
theorem watchdogNthFire_spec (db : String → ℕ) (c : String) :
    ∀ n, (watchdogNthFire db c n).1 c = db c + (n + 1) ∧
      (watchdogNthFire db c n).2 =
        [ReengagementAction.persistAttempts c (db c + (n + 1)),
         ReengagementAction.invokeHandlers c (db c + (n + 1))] := by
  intro n
  induction n with
  | zero =>
      constructor
      · simp [watchdogNthFire, watchdogFire]
      · simp [watchdogNthFire, watchdogFire]
  | succ n ih =>
      obtain ⟨ihdb, -⟩ := ih
      constructor
      · show (watchdogFire (watchdogNthFire db c n).1 c).1 c = _
        simp [watchdogFire, ihdb, Nat.add_assoc]
      · show (watchdogFire (watchdogNthFire db c n).1 c).2 = _
        simp [watchdogFire, ihdb, Nat.add_assoc]

/-- C7 (counterexample): `trigger_manual` builds its event with
`attempts + 1` but never persists the incremented counter, so two
successive manual triggers for the same conversation both emit attempt
number 1 — the same `(conversationID, attemptNumber)` pair is re-emitted,
and no persist action precedes the handler invocation on this path. -/
theorem manual_trigger_reemission_counterexample :
    (triggerManual (fun _ => 0) "c").2 =
      [ReengagementAction.invokeHandlers "c" 1] ∧
    (triggerManual (triggerManual (fun _ => 0) "c").1 "c").2 =
      [ReengagementAction.invokeHandlers "c" 1] ∧
    ReengagementAction.persistAttempts "c" 1 ∉ (triggerManual (fun _ => 0) "c").2 := by
  refine ⟨rfl, rfl, ?_⟩
  simp [triggerManual]

/-- C7 (amended): on the *watchdog* emission path the incremented attempt
counter is persisted strictly before handlers are invoked, both carrying
`previous attempts + 1` (1-based), and successive watchdog fires emit
strictly increasing attempt numbers, so the watchdog never re-emits the
same `(conversationID, attemptNumber)`.  The manual path
(`trigger_manual`) does not persist and can re-emit. -/
theorem watchdog_persist_before_emit (db : String → ℕ) (c : String) (n : ℕ) :
    (watchdogNthFire db c n).2 =
      [ReengagementAction.persistAttempts c (db c + (n + 1)),
       ReengagementAction.invokeHandlers c (db c + (n + 1))] ∧
    (watchdogNthFire db c n).1 c = db c + (n + 1) ∧
    (∀ m a b, ReengagementAction.invokeHandlers c a ∈ (watchdogNthFire db c n).2 →
      ReengagementAction.invokeHandlers c b ∈ (watchdogNthFire db c m).2 →
      n ≠ m → a ≠ b) := by
  obtain ⟨hdb, htr⟩ := watchdogNthFire_spec db c n
  refine ⟨htr, hdb, ?_⟩
  intro m a b ha hb hnm
  obtain ⟨-, htrm⟩ := watchdogNthFire_spec db c m
  rw [htr] at ha
  rw [htrm] at hb
  simp at ha hb
  omega

/-- Witness for `watchdog_persist_before_emit`: first fire on a fresh
conversation persists attempt 1 before invoking handlers with attempt 1. -/
theorem watchdog_persist_before_emit_witness :
    (watchdogNthFire (fun _ => 0) "c" 0).2 =
      [ReengagementAction.persistAttempts "c" 1,
       ReengagementAction.invokeHandlers "c" 1] ∧
    (watchdogNthFire (fun _ => 0) "c" 0).1 "c" = 1 :=
  ⟨(watchdog_persist_before_emit (fun _ => 0) "c" 0).1,
   (watchdog_persist_before_emit (fun _ => 0) "c" 0).2.1⟩

/-- The parsing loop accumulates messages in arrival (append) order. -/
theorem packetFold_msgs :
    ∀ (msgs : List StandardMessage) (acc : PacketAcc),
      (msgs.foldl packetStep acc).msgs = acc.msgs ++ msgs := by
  intro msgs
  induction msgs with
  | nil => intro acc; simp
  | cons m rest ih =>
      intro acc
      rw [List.foldl_cons, ih]
      simp [packetStep]

/-- The parsing loop's duration accumulator sums the entries' media
durations (`None` contributing 0, exactly as the truthiness test does). -/
theorem packetFold_totalDur :
    ∀ (msgs : List StandardMessage) (acc : PacketAcc),
      (msgs.foldl packetStep acc).totalDur =
        acc.totalDur + (msgs.map (fun m => m.mediaDurationSeconds.getD 0)).sum := by
  intro msgs
  induction msgs with
  | nil => intro acc; simp
  | cons m rest ih =>
      intro acc
      rw [List.foldl_cons, ih]
      cases hd : m.mediaDurationSeconds with
      | none => simp [packetStep, hd]
      | some d =>
          by_cases h0 : d = 0
          · subst h0; simp [packetStep, hd]
          · simp only [packetStep, hd, h0, if_false, List.map_cons, List.sum_cons,
              Option.getD_some]
            omega

/-- Starting from a seen minimum `f`, the loop's running first-timestamp is
the least timestamp among `f` and the folded messages. -/
theorem packetFold_firstTs :
    ∀ (msgs : List StandardMessage) (acc : PacketAcc) (f : ℤ),
      acc.firstTs = some f →
      ∃ v, (msgs.foldl packetStep acc).firstTs = some v ∧ v ≤ f ∧
        (∀ m ∈ msgs, v ≤ m.timestamp) ∧
        (v = f ∨ ∃ m ∈ msgs, v = m.timestamp) := by
  intro msgs
  induction msgs with
  | nil =>
      intro acc f hf
      exact ⟨f, by simpa using hf, le_refl f, by simp, Or.inl rfl⟩
  | cons m rest ih =>
      intro acc f hf
      by_cases hlt : m.timestamp < f
      · have hstep : (packetStep acc m).firstTs = some m.timestamp := by
          simp [packetStep, hf, hlt]
        obtain ⟨v, hv, hvf, hvall, hvat⟩ := ih (packetStep acc m) m.timestamp hstep
        refine ⟨v, by rw [List.foldl_cons]; exact hv, by linarith, ?_, ?_⟩
        · intro m' hm'
          rcases List.mem_cons.mp hm' with h | h
          · subst h; exact hvf
          · exact hvall m' h
        · rcases hvat with h | ⟨m', hm', h⟩
          · exact Or.inr ⟨m, List.mem_cons_self m rest, h⟩
          · exact Or.inr ⟨m', List.mem_cons_of_mem m hm', h⟩
      · have hstep : (packetStep acc m).firstTs = some f := by
          simp [packetStep, hf, hlt]
        obtain ⟨v, hv, hvf, hvall, hvat⟩ := ih (packetStep acc m) f hstep
        refine ⟨v, by rw [List.foldl_cons]; exact hv, hvf, ?_, ?_⟩
        · intro m' hm'
          rcases List.mem_cons.mp hm' with h | h
          · subst h; exact le_trans hvf (le_of_not_lt hlt)
          · exact hvall m' h
        · rcases hvat with h | ⟨m', hm', h⟩
          · exact Or.inl h
          · exact Or.inr ⟨m', List.mem_cons_of_mem m hm', h⟩

/-- Starting from a seen maximum `l`, the loop's running last-timestamp is
the greatest timestamp among `l` and the folded messages. -/
theorem packetFold_lastTs :
    ∀ (msgs : List StandardMessage) (acc : PacketAcc) (l : ℤ),
      acc.lastTs = some l →
      ∃ v, (msgs.foldl packetStep acc).lastTs = some v ∧ l ≤ v ∧
        (∀ m ∈ msgs, m.timestamp ≤ v) ∧
        (v = l ∨ ∃ m ∈ msgs, v = m.timestamp) := by
  intro msgs
  induction msgs with
  | nil =>
      intro acc l hl
      exact ⟨l, by simpa using hl, le_refl l, by simp, Or.inl rfl⟩
  | cons m rest ih =>
      intro acc l hl
      by_cases hlt : l < m.timestamp
      · have hstep : (packetStep acc m).lastTs = some m.timestamp := by
          simp [packetStep, hl, hlt]
        obtain ⟨v, hv, hvl, hvall, hvat⟩ := ih (packetStep acc m) m.timestamp hstep
        refine ⟨v, by rw [List.foldl_cons]; exact hv, by linarith, ?_, ?_⟩
        · intro m' hm'
          rcases List.mem_cons.mp hm' with h | h
          · subst h; exact hvl
          · exact hvall m' h
        · rcases hvat with h | ⟨m', hm', h⟩
          · exact Or.inr ⟨m, List.mem_cons_self m rest, h⟩
          · exact Or.inr ⟨m', List.mem_cons_of_mem m hm', h⟩
      · have hstep : (packetStep acc m).lastTs = some l := by
          simp [packetStep, hl, hlt]
        obtain ⟨v, hv, hvl, hvall, hvat⟩ := ih (packetStep acc m) l hstep
        refine ⟨v, by rw [List.foldl_cons]; exact hv, hvl, ?_, ?_⟩
        · intro m' hm'
          rcases List.mem_cons.mp hm' with h | h
          · subst h; exact le_trans (le_of_not_lt hlt) hvl
          · exact hvall m' h
        · rcases hvat with h | ⟨m', hm', h⟩
          · exact Or.inl h
          · exact Or.inr ⟨m', List.mem_cons_of_mem m hm', h⟩

/-- C4 (counterexample): a drained packet of two text messages `"a"`, `"b"`
has `combined_text = "a b"` — text entries are joined with a single space
(`" ".join(texts)`), not with newlines as the spec states. -/
theorem combined_text_separator_counterexample :
    (buildPacket "t"
        [mkStandardMessage "m1" "chat" "" "a" ContentType.text none false 0,
         mkStandardMessage "m2" "chat" "" "b" ContentType.text none false 1] 0).map
        combinedText = some "a b" ∧
    (buildPacket "t"
        [mkStandardMessage "m1" "chat" "" "a" ContentType.text none false 0,
         mkStandardMessage "m2" "chat" "" "b" ContentType.text none false 1] 0).map
        combinedText ≠ some ("a" ++ "\n" ++ "b") := by
  constructor
  · rfl
  · decide

/-- C4 (amended): every successfully drained non-empty buffer yields a
packet containing all messages in arrival order, whose
`first_message_at`/`last_message_at` are the minimum/maximum message
timestamps, whose total duration is the sum of the entries' media
durations, and whose combined text is the *space*-separated concatenation
of the non-empty text-typed entries. -/
theorem drained_packet_fields (tid : String) (msgs : List StandardMessage)
    (now : ℤ) (hne : msgs ≠ []) :
    ∃ p, buildPacket tid msgs now = some p ∧
      p.messages = msgs ∧
      (∀ m ∈ msgs, p.firstMessageAt ≤ m.timestamp) ∧
      (∃ m ∈ msgs, p.firstMessageAt = m.timestamp) ∧
      (∀ m ∈ msgs, m.timestamp ≤ p.lastMessageAt) ∧
      (∃ m ∈ msgs, p.lastMessageAt = m.timestamp) ∧
      p.totalDurationSeconds =
        (msgs.map (fun m => m.mediaDurationSeconds.getD 0)).sum ∧
      combinedText p = String.intercalate " "
        ((msgs.filter (fun m => (m.content != "") &&
            (m.contentType == ContentType.text))).map (fun m => m.content)) := by
  cases msgs with
  | nil => exact absurd rfl hne
  | cons m0 rest =>
      obtain ⟨vf, hvf, hvf0, hvfall, hvfat⟩ :=
        packetFold_firstTs rest (packetStep ⟨[], "", none, none, 0⟩ m0)
          m0.timestamp rfl
      obtain ⟨vl, hvl, hvl0, hvlall, hvlat⟩ :=
        packetFold_lastTs rest (packetStep ⟨[], "", none, none, 0⟩ m0)
          m0.timestamp rfl
      have hfirst : ((m0 :: rest).foldl packetStep ⟨[], "", none, none, 0⟩).firstTs =
          some vf := by
        rw [List.foldl_cons]; exact hvf
      have hlast : ((m0 :: rest).foldl packetStep ⟨[], "", none, none, 0⟩).lastTs =
          some vl := by
        rw [List.foldl_cons]; exact hvl
      have hmsgs : ((m0 :: rest).foldl packetStep ⟨[], "", none, none, 0⟩).msgs =
          m0 :: rest := by
        rw [packetFold_msgs]; rfl
      have hdur : ((m0 :: rest).foldl packetStep ⟨[], "", none, none, 0⟩).totalDur =
          ((m0 :: rest).map (fun m => m.mediaDurationSeconds.getD 0)).sum := by
        rw [packetFold_totalDur]; simp
      simp only [buildPacket]
      refine ⟨_, rfl, ?_, ?_, ?_, ?_, ?_, ?_, ?_⟩
      · exact hmsgs
      · intro m hm
        show (((m0 :: rest).foldl packetStep ⟨[], "", none, none, 0⟩).firstTs).getD now ≤
          m.timestamp
        rw [hfirst]
        rcases List.mem_cons.mp hm with h | h
        · subst h; exact hvf0
        · exact hvfall m h
      · show ∃ m ∈ m0 :: rest,
          (((m0 :: rest).foldl packetStep ⟨[], "", none, none, 0⟩).firstTs).getD now =
            m.timestamp
        rw [hfirst]
        rcases hvfat with h | ⟨m', hm', h⟩
        · exact ⟨m0, List.mem_cons_self m0 rest, h⟩
        · exact ⟨m', List.mem_cons_of_mem m0 hm', h⟩
      · intro m hm
        show m.timestamp ≤
          (((m0 :: rest).foldl packetStep ⟨[], "", none, none, 0⟩).lastTs).getD now
        rw [hlast]
        rcases List.mem_cons.mp hm with h | h
        · subst h; exact hvl0
        · exact hvlall m h
      · show ∃ m ∈ m0 :: rest,
          (((m0 :: rest).foldl packetStep ⟨[], "", none, none, 0⟩).lastTs).getD now =
            m.timestamp
        rw [hlast]
        rcases hvlat with h | ⟨m', hm', h⟩
        · exact ⟨m0, List.mem_cons_self m0 rest, h⟩
        · exact ⟨m', List.mem_cons_of_mem m0 hm', h⟩
      · exact hdur
      · show String.intercalate " "
            (((((m0 :: rest).foldl packetStep ⟨[], "", none, none, 0⟩).msgs).filter
              (fun m => (m.content != "") && (m.contentType == ContentType.text))).map
              (fun m => m.content)) = _
        rw [hmsgs]

/-- Witness for `drained_packet_fields` on a singleton buffer. -/
theorem drained_packet_fields_witness :
    ∃ p, buildPacket "t"
        [mkStandardMessage "m1" "chat" "" "hi" ContentType.text none false 5] 0 =
        some p ∧
      p.messages = [mkStandardMessage "m1" "chat" "" "hi" ContentType.text none false 5] ∧
      (∀ m ∈ [mkStandardMessage "m1" "chat" "" "hi" ContentType.text none false 5],
        p.firstMessageAt ≤ m.timestamp) ∧
      (∃ m ∈ [mkStandardMessage "m1" "chat" "" "hi" ContentType.text none false 5],
        p.firstMessageAt = m.timestamp) ∧
      (∀ m ∈ [mkStandardMessage "m1" "chat" "" "hi" ContentType.text none false 5],
        m.timestamp ≤ p.lastMessageAt) ∧
      (∃ m ∈ [mkStandardMessage "m1" "chat" "" "hi" ContentType.text none false 5],
        p.lastMessageAt = m.timestamp) ∧
      p.totalDurationSeconds =
        ([mkStandardMessage "m1" "chat" "" "hi" ContentType.text none false 5].map
          (fun m => m.mediaDurationSeconds.getD 0)).sum ∧
      combinedText p = String.intercalate " "
        (([mkStandardMessage "m1" "chat" "" "hi" ContentType.text none false 5].filter
            (fun m => (m.content != "") && (m.contentType == ContentType.text))).map
          (fun m => m.content)) :=
  drained_packet_fields "t"
    [mkStandardMessage "m1" "chat" "" "hi" ContentType.text none false 5] 0
    (List.cons_ne_nil _ _)

/-- The drain invariant is symmetric in the two drains. -/
theorem drainInv_swap (st : SysState) (h : DrainInv st) : DrainInv (swapSys st) := by
  obtain ⟨h1, h2, h3, h4, h5⟩ := h
  refine ⟨?_, ?_, ?_, ?_, ?_⟩
  · show st.store.lock = (holdsLock st.p1 || holdsLock st.p0)
    rw [h1]
    exact Bool.or_comm _ _
  · show ¬(holdsLock st.p1 = true ∧ holdsLock st.p0 = true)
    tauto
  · show ¬(gotPacket st.p1 = true ∧ gotPacket st.p0 = true)
    tauto
  · show freedSome st.p1 = true → st.store.buffer = []
    exact h5
  · show freedSome st.p0 = true → st.store.buffer = []
    exact h4

/-- One atomic step of drain 0 preserves the drain invariant. -/
theorem drainInv_step0 (s : DrainState) (p0 p1 : DrainPC)
    (h : DrainInv ⟨s, p0, p1⟩) : DrainInv (sysStep false ⟨s, p0, p1⟩) := by
  obtain ⟨h1, h2, h3, h4, h5⟩ := h
  cases p0 with
  | start =>
      cases hs : s.lock with
      | true =>
          have hp1 : holdsLock p1 = true := by
            rw [hs] at h1
            cases hh : holdsLock p1 with
            | true => rfl
            | false =>
                rw [hh] at h1
                simp [holdsLock] at h1
          simp only [sysStep, drainStep, hs, if_true]
          refine ⟨?_, ?_, ?_, ?_, ?_⟩
          · show s.lock = (holdsLock (DrainPC.finished none) || holdsLock p1)
            rw [hs, hp1]
            rfl
          · show ¬(holdsLock (DrainPC.finished none) = true ∧ holdsLock p1 = true)
            intro hcontra
            exact Bool.noConfusion hcontra.1
          · show ¬(gotPacket (DrainPC.finished none) = true ∧ gotPacket p1 = true)
            intro hcontra
            exact Bool.noConfusion hcontra.1
          · show freedSome (DrainPC.finished none) = true → s.buffer = []
            intro hf
            exact Bool.noConfusion hf
          · show freedSome p1 = true → s.buffer = []
            exact h5
      | false =>
          have hp1 : holdsLock p1 = false := by
            rw [hs] at h1
            cases hh : holdsLock p1 with
            | false => rfl
            | true =>
                rw [hh] at h1
                simp [holdsLock] at h1
          simp only [sysStep, drainStep, hs]
          refine ⟨?_, ?_, ?_, ?_, ?_⟩
          · show true = (holdsLock DrainPC.readList || holdsLock p1)
            rfl
          · show ¬(holdsLock DrainPC.readList = true ∧ holdsLock p1 = true)
            intro hcontra
            rw [hcontra.2] at hp1
            exact Bool.noConfusion hp1
          · show ¬(gotPacket DrainPC.readList = true ∧ gotPacket p1 = true)
            intro hcontra
            exact Bool.noConfusion hcontra.1
          · show freedSome DrainPC.readList = true → s.buffer = []
            intro hf
            exact Bool.noConfusion hf
          · show freedSome p1 = true → s.buffer = []
            exact h5
  | readList =>
      cases hb : s.buffer.isEmpty with
      | true =>
          simp only [sysStep, drainStep, hb, if_true]
          refine ⟨?_, ?_, ?_, ?_, ?_⟩
          · show s.lock = (holdsLock (DrainPC.relLock none) || holdsLock p1)
            exact h1
          · show ¬(holdsLock (DrainPC.relLock none) = true ∧ holdsLock p1 = true)
            exact h2
          · show ¬(gotPacket (DrainPC.relLock none) = true ∧ gotPacket p1 = true)
            intro hcontra
            exact Bool.noConfusion hcontra.1
          · show freedSome (DrainPC.relLock none) = true → s.buffer = []
            intro hf
            exact Bool.noConfusion hf
          · show freedSome p1 = true → s.buffer = []
            exact h5
      | false =>
          have hg1 : gotPacket p1 = false := by
            cases p1 with
            | start => rfl
            | readList => exact (h2 ⟨rfl, rfl⟩).elim
            | delBuf ms => exact (h2 ⟨rfl, rfl⟩).elim
            | relLock r =>
                cases r with
                | none => rfl
                | some ms => exact (h2 ⟨rfl, rfl⟩).elim
            | finished r =>
                cases r with
                | none => rfl
                | some ms =>
                    have hbuf := h5 rfl
                    rw [hbuf] at hb
                    simp at hb
          simp only [sysStep, drainStep, hb]
          refine ⟨?_, ?_, ?_, ?_, ?_⟩
          · show s.lock = (holdsLock (DrainPC.delBuf s.buffer) || holdsLock p1)
            exact h1
          · show ¬(holdsLock (DrainPC.delBuf s.buffer) = true ∧ holdsLock p1 = true)
            exact h2
          · show ¬(gotPacket (DrainPC.delBuf s.buffer) = true ∧ gotPacket p1 = true)
            intro hcontra
            rw [hcontra.2] at hg1
            exact Bool.noConfusion hg1
          · show freedSome (DrainPC.delBuf s.buffer) = true → s.buffer = []
            intro hf
            exact Bool.noConfusion hf
          · show freedSome p1 = true → s.buffer = []
            exact h5
  | delBuf msgs =>
      simp only [sysStep, drainStep]
      refine ⟨?_, ?_, ?_, ?_, ?_⟩
      · show s.lock = (holdsLock (DrainPC.relLock (some msgs)) || holdsLock p1)
        exact h1
      · show ¬(holdsLock (DrainPC.relLock (some msgs)) = true ∧ holdsLock p1 = true)
        exact h2
      · show ¬(gotPacket (DrainPC.relLock (some msgs)) = true ∧ gotPacket p1 = true)
        exact h3
      · show freedSome (DrainPC.relLock (some msgs)) = true → ([] : List String) = []
        intro _
        rfl
      · show freedSome p1 = true → ([] : List String) = []
        intro _
        rfl
  | relLock res =>
      have hp1 : holdsLock p1 = false := by
        cases hh : holdsLock p1 with
        | false => rfl
        | true => exact (h2 ⟨rfl, hh⟩).elim
      simp only [sysStep, drainStep]
      refine ⟨?_, ?_, ?_, ?_, ?_⟩
      · show false = (holdsLock (DrainPC.finished res) || holdsLock p1)
        rw [hp1]
        rfl
      · show ¬(holdsLock (DrainPC.finished res) = true ∧ holdsLock p1 = true)
        intro hcontra
        exact Bool.noConfusion hcontra.1
      · show ¬(gotPacket (DrainPC.finished res) = true ∧ gotPacket p1 = true)
        cases res with
        | none =>
            intro hcontra
            exact Bool.noConfusion hcontra.1
        | some ms => exact h3
      · show freedSome (DrainPC.finished res) = true → s.buffer = []
        cases res with
        | none =>
            intro hf
            exact Bool.noConfusion hf
        | some ms =>
            intro _
            exact h4 rfl
      · show freedSome p1 = true → s.buffer = []
        exact h5
  | finished res =>
      simp only [sysStep, drainStep]
      exact ⟨h1, h2, h3, h4, h5⟩

/-- Either scheduled step preserves the drain invariant. -/
theorem drainInv_sysStep (c : Bool) (st : SysState) (h : DrainInv st) :
    DrainInv (sysStep c st) := by
  cases c with
  | false =>
      obtain ⟨s, p0, p1⟩ := st
      exact drainInv_step0 s p0 p1 h
  | true =>
      obtain ⟨s, p0, p1⟩ := st
      have hsw : sysStep true ⟨s, p0, p1⟩ = swapSys (sysStep false ⟨s, p1, p0⟩) := by
        simp [sysStep, swapSys]
      rw [hsw]
      exact drainInv_swap _ (drainInv_step0 s p1 p0 (drainInv_swap ⟨s, p0, p1⟩ h))

/-- The drain invariant holds after any interleaving. -/
theorem drainInv_runSched :
    ∀ (sched : List Bool) (st : SysState), DrainInv st → DrainInv (runSched st sched) := by
  intro sched
  induction sched with
  | nil => intro st h; exact h
  | cons c rest ih => intro st h; exact ih _ (drainInv_sysStep c st h)

/-- The invariant holds initially: lock key absent, both drains at entry. -/
theorem drainInv_init (b : List String) :
    DrainInv ⟨⟨false, b⟩, DrainPC.start, DrainPC.start⟩ := by
  unfold DrainInv
  refine ⟨rfl, ?_, ?_, ?_, ?_⟩ <;> simp [holdsLock, gotPacket, freedSome]

/-- C2: a drain that fails to acquire the lock returns no packet and no
error; a drain of an empty buffer returns no packet and no error; and for
any interleaving of two concurrent drains of the same conversation key,
at most one of them finishes with a non-nil packet. -/
theorem drain_single_flight :
    (∀ s : DrainState, s.lock = true → drainResult s = none) ∧
    (∀ s : DrainState, s.buffer = [] → drainResult s = none) ∧
    (∀ (b : List String) (sched : List Bool) (r0 r1 : List String),
      ¬((runSched ⟨⟨false, b⟩, DrainPC.start, DrainPC.start⟩ sched).p0 =
          DrainPC.finished (some r0) ∧
        (runSched ⟨⟨false, b⟩, DrainPC.start, DrainPC.start⟩ sched).p1 =
          DrainPC.finished (some r1))) := by
  refine ⟨?_, ?_, ?_⟩
  · intro s h
    simp [drainResult, drainRun, stepOnce, drainStep, h]
  · intro s h
    cases hs : s.lock with
    | true => simp [drainResult, drainRun, stepOnce, drainStep, hs]
    | false => simp [drainResult, drainRun, stepOnce, drainStep, hs, h]
  · rintro b sched r0 r1 ⟨hp0, hp1⟩
    have hinv := drainInv_runSched sched ⟨⟨false, b⟩, DrainPC.start, DrainPC.start⟩
      (drainInv_init b)
    exact hinv.2.2.1 ⟨by rw [hp0]; rfl, by rw [hp1]; rfl⟩

/-- Witness for `drain_single_flight`: a locked-out drain, an empty drain,
and a full interleaving where drain 0 wins the race. -/
theorem drain_single_flight_witness :
    drainResult ⟨true, ["m"]⟩ = none ∧
    drainResult ⟨false, ([] : List String)⟩ = none ∧
    ¬((runSched ⟨⟨false, ["m"]⟩, DrainPC.start, DrainPC.start⟩
          [false, false, false, false, true, true, true, true]).p0 =
        DrainPC.finished (some ["m"]) ∧
      (runSched ⟨⟨false, ["m"]⟩, DrainPC.start, DrainPC.start⟩
          [false, false, false, false, true, true, true, true]).p1 =
        DrainPC.finished (some ["m"])) :=
  ⟨drain_single_flight.1 ⟨true, ["m"]⟩ rfl,
   drain_single_flight.2.1 ⟨false, []⟩ rfl,
   drain_single_flight.2.2 ["m"] [false, false, false, false, true, true, true, true]
     ["m"] ["m"]⟩

end Apollo
